import Mathlib

/-!
Verification of the Configuration & Topology Resolution Engine of
`git-config-manager` (package `internal/gitcfg`).

Go strings and byte slices are modelled as `List Char`, one character per
byte; all inputs of interest are ASCII, where Go's byte-level and
rune-level views coincide.  Go `int` is modelled as `Int` (values produced
by `strconv.Atoi` may be negative), and the zero-based `order` counter as
`Nat`.  Fallible Go functions returning `(T, error)` are modelled as
`Except (List Char) T`.
-/

namespace GitCfg

abbrev GoStr := List Char

/-- Convert a Lean string literal to the `List Char` model of a Go string. -/
def str (s : String) : GoStr := s.toList

/-- The NUL byte that delimits fields of `git config --null` output. -/
def nulChar : Char := Char.ofNat 0

/-- Model of `bytes.Split(raw, []byte\x7b0\x7d)` for a single-byte separator: the chunks
between occurrences of `sep`; a list with `n` separators yields `n + 1`
chunks, including empty ones. -/
def goSplit (sep : Char) : GoStr → List GoStr
  | [] => [[]]
  | c :: rest =>
    if c = sep then [] :: goSplit sep rest
    else
      match goSplit sep rest with
      | [] => [[c]]
      | g :: gs => (c :: g) :: gs

/-- Function `splitKeyValue` from `gitconfig.go`: `bytes.SplitN(raw, []byte{'\n'}, 2)` —
the key is everything before the first newline, the value everything after
it; with no newline the whole input is the key and the value is empty. -/
def splitKeyValue (raw : GoStr) : GoStr × GoStr :=
  let key := raw.takeWhile (fun c => c ≠ '\n')
  let rest := raw.dropWhile (fun c => c ≠ '\n')
  match rest with
  | [] => (key, [])
  | _ :: tail => (key, tail)

def isDigitChar (c : Char) : Bool := '0' ≤ c && c ≤ '9'

def digitsToNat (ds : GoStr) : Nat :=
  ds.foldl (fun a d => a * 10 + (d.toNat - 48)) 0

/-- Go's `strconv.Atoi` (= `ParseInt(s, 10, 0)` with 64-bit `int`): an
optional single leading `+` or `-`, then one or more ASCII decimal digits,
value within the `int64` range; every other input reports an error,
modelled as `none`. -/
def goAtoi (s : GoStr) : Option Int :=
  match s with
  | [] => none
  | c :: rest =>
    let neg := c = '-'
    let digits := if c = '-' ∨ c = '+' then rest else s
    if digits.isEmpty then none
    else if digits.all isDigitChar then
      let n : Int := Int.ofNat (digitsToNat digits)
      let v : Int := if neg then -n else n
      if -(2 ^ 63) ≤ v ∧ v ≤ 2 ^ 63 - 1 then some v else none
    else none

/-- The literal marker `"file:"` used by `normalizeOrigin`. -/
def filePrefixStr : GoStr := str ("file:")

/-- Split a string around its LAST colon (`strings.LastIndex(s, ":")`):
`some (before, after)` when a colon exists, `none` otherwise. -/
def lastColonSplit : GoStr → Option (GoStr × GoStr)
  | [] => none
  | c :: rest =>
    match lastColonSplit rest with
    | some (pre, suf) => some (c :: pre, suf)
    | none => if c = ':' then some ([], rest) else none

/-- Function `normalizeOrigin` from `gitconfig.go`: empty input maps to `("", 0)`;
a string not starting with `file:` is returned verbatim with line `0`;
otherwise the marker is stripped, the suffix after the last colon is fed
to `Atoi`, and on success the prefix/parsed-line pair is returned, on
failure (or with no colon) the whole remainder with line `0`. -/
def normalizeOrigin (origin : GoStr) : GoStr × Int :=
  if origin.isEmpty then ([], 0)
  else if ¬ (filePrefixStr.isPrefixOf origin) then (origin, 0)
  else
    let pathWithLine := origin.drop 5
    match lastColonSplit pathWithLine with
    | none => (pathWithLine, 0)
    | some (pre, suf) =>
      match goAtoi suf with
      | some line => (pre, line)
      | none => (pathWithLine, 0)

/-- ASCII case folding, modelling `strings.ToLower` on the ASCII scope
labels git emits (the source applies full Unicode folding, which agrees
with this on ASCII). -/
def toLowerChar (c : Char) : Char :=
  if 'A' ≤ c ∧ c ≤ 'Z' then Char.ofNat (c.toNat + 32) else c

def goToLower (s : GoStr) : GoStr := s.map toLowerChar

/-- Record type `gitConfigEntry` from `gitconfig.go`. -/
structure gitConfigEntry where
  key : GoStr
  value : GoStr
  scope : GoStr
  file : GoStr
  line : Int
  order : Nat
deriving DecidableEq, Repr

/-- The triplet loop of `parseGitConfigOutput`: consume three chunks at a
time while at least three remain (`i+2 < len(chunks)`); an all-empty
triplet is padding and is skipped, an empty key drops the triplet; only
retained records advance `order`. -/
def parseTriplets : List GoStr → Nat → List gitConfigEntry
  | scopeRaw :: originRaw :: keyValueRaw :: rest, order =>
    if scopeRaw.isEmpty && originRaw.isEmpty && keyValueRaw.isEmpty then
      parseTriplets rest order
    else
      let kv := splitKeyValue keyValueRaw
      if kv.fst.isEmpty then
        parseTriplets rest order
      else
        let fl := normalizeOrigin originRaw
        { key := kv.fst, value := kv.snd, scope := goToLower scopeRaw,
          file := fl.fst, line := fl.snd, order := order }
          :: parseTriplets rest (order + 1)
  | _, _ => []

/-- Function `parseGitConfigOutput` from `gitconfig.go`: empty input yields no
records; otherwise the NUL-split chunks are consumed as triplets.  The Go
function's `error` result is always `nil`, modelled by `Except`. -/
def parseGitConfigOutput (raw : GoStr) : Except GoStr (List gitConfigEntry) :=
  if raw.isEmpty then Except.ok []
  else Except.ok (parseTriplets (goSplit nulChar raw) 0)

/-- Record type `ConfigSource` from the data model: scope, file and line of one record. -/
structure ConfigSource where
  scope : GoStr
  file : GoStr
  line : Int
deriving DecidableEq, Repr

/-- Record type `ConfigOverride` from the data model (the `Timestamp` field is left at
its zero value by `buildConfigValues`). -/
structure ConfigOverride where
  value : GoStr
  source : ConfigSource
  timestamp : GoStr
deriving DecidableEq, Repr

/-- Record type `ConfigValue` from the data model.  The Go `Overrides []ConfigOverride`
slice field distinguishes `nil` (never assigned; serialized as absent)
from a non-nil slice, modelled as `Option (List ConfigOverride)`. -/
structure ConfigValue where
  key : GoStr
  value : GoStr
  source : ConfigSource
  overrides : Option (List ConfigOverride)
  lastModified : GoStr
deriving DecidableEq, Repr

/-- Length (Go `len`) of the `Overrides` slice of a `ConfigValue`: Go's `len` of a
`nil` slice is `0`. -/
def ovList (v : ConfigValue) : List ConfigOverride :=
  v.overrides.getD []

def mkOverride (e : gitConfigEntry) : ConfigOverride :=
  { value := e.value
    source := { scope := e.scope, file := e.file, line := e.line }
    timestamp := [] }

/-- The group `byKey[key]` built by `buildConfigValues`: appending each
entry to its key's slice in input order makes the group exactly the
sub-list of entries carrying that key, in input order. -/
def filterKey (entries : List gitConfigEntry) (key : GoStr) :
    List gitConfigEntry :=
  entries.filter (fun e => decide (e.key = key))

/-- Stable insertion into a list already sorted by `order`: the new
element, which originally stood before every list element, goes in front
of the first element whose `order` is not smaller. -/
def insertByOrder (x : gitConfigEntry) :
    List gitConfigEntry → List gitConfigEntry
  | [] => [x]
  | b :: t =>
    if x.order ≤ b.order then x :: b :: t else b :: insertByOrder x t

/-- Model of `sort.SliceStable(items, less)` with `less i j = items[i].order <
items[j].order`: a stable sort by ascending `order`.  The output of a
stable sort is determined uniquely by the comparator, so the stable
insertion sort used here is extensionally the source's stable merge
sort. -/
def sortByOrder : List gitConfigEntry → List gitConfigEntry
  | [] => []
  | x :: xs => insertByOrder x (sortByOrder xs)

/-- Function `buildConfigValues` from `gitconfig.go`, viewed at one key: the Go
function builds a map from key to `ConfigValue`; this model returns the
entry that map holds at `key` (`none` when the key is absent).  The
group for the key is stably sorted by `order` ascending, the active
record is the group's last element, and the overrides walk the group
from its second-to-last element down to its first (the Go loop `for i :=
len(items)-2 down to 0`).  `Overrides` is assigned only when the
group has more than one element, and otherwise stays `nil`. -/
def buildConfigValues (entries : List gitConfigEntry) (key : GoStr) :
    Option ConfigValue :=
  match (sortByOrder (filterKey entries key)).getLast? with
  | none => none
  | some active =>
    some { key := key
           value := active.value
           source := { scope := active.scope, file := active.file,
                       line := active.line }
           overrides :=
             if (sortByOrder (filterKey entries key)).length > 1 then
               some (((sortByOrder (filterKey entries key)).dropLast).reverse.map
                 mkOverride)
             else none
           lastModified := [] }

/-! ### Path helpers (`path/filepath`, Unix rules)

`buildRepository` and `samePath` use `filepath.Clean`, `filepath.Join`,
`filepath.IsAbs`, `filepath.Base` and `strings.TrimSpace`; they are
reproduced here for the Unix separator `/`. -/

def dotStr : GoStr := ['.']
def dotDotStr : GoStr := ['.', '.']

/-- The element loop of `filepath.Clean`: process the `/`-separated
components against a backtrackable output stack (held in reverse).  Empty
and `.` components are dropped; `..` pops a real component, is dropped at
the root, and is kept when there is nothing left to pop in a relative
path. -/
def cleanAcc (rooted : Bool) : List GoStr → List GoStr → List GoStr
  | acc, [] => acc.reverse
  | acc, comp :: rest =>
    if comp.isEmpty ∨ comp = dotStr then cleanAcc rooted acc rest
    else if comp = dotDotStr then
      match acc with
      | [] =>
        if rooted then cleanAcc rooted [] rest
        else cleanAcc rooted [dotDotStr] rest
      | top :: below =>
        if ¬ rooted ∧ top = dotDotStr then cleanAcc rooted (dotDotStr :: acc) rest
        else cleanAcc rooted below rest
    else cleanAcc rooted (comp :: acc) rest

/-- Join path components with `/`, as the output buffer of
`filepath.Clean` does. -/
def joinComps : List GoStr → GoStr
  | [] => []
  | [x] => x
  | x :: y :: rest => x ++ '/' :: joinComps (y :: rest)

/-- Model of `filepath.Clean` (Unix): shortest lexically-equivalent path — no `.`
or empty elements, no `..` after a real element or at the root, `"."` for
an empty result. -/
def goClean (path : GoStr) : GoStr :=
  match path with
  | [] => dotStr
  | c :: _ =>
    let rooted := c = '/'
    let comps := cleanAcc rooted [] (goSplit '/' path)
    if rooted then '/' :: joinComps comps
    else if comps.isEmpty then dotStr
    else joinComps comps

/-- Model of `filepath.Join` for the two-element calls made by `buildRepository`:
empty elements are dropped and the `/`-joined rest is cleaned; all-empty
input gives the empty path. -/
def goJoin (a b : GoStr) : GoStr :=
  if a.isEmpty ∧ b.isEmpty then []
  else if a.isEmpty then goClean b
  else if b.isEmpty then goClean a
  else goClean (a ++ '/' :: b)

/-- Model of `filepath.IsAbs` (Unix): the path starts with `/`. -/
def goIsAbs (p : GoStr) : Bool :=
  match p with
  | '/' :: _ => true
  | _ => false

/-- Model of `filepath.Base` (Unix): `"."` for the empty path; otherwise trailing
slashes are stripped, the part after the last remaining slash is taken,
and an all-slash path gives `"/"`. -/
def goBase (path : GoStr) : GoStr :=
  if path.isEmpty then dotStr
  else
    let p1 := (path.reverse.dropWhile (fun c => c = '/')).reverse
    let p2 := (p1.reverse.takeWhile (fun c => c ≠ '/')).reverse
    if p2.isEmpty then ['/'] else p2

/-- Model of `unicode.IsSpace` restricted to the Latin-1 range (space, `\t`, `\n`,
vertical tab, form feed, `\r`, NEL, NBSP); the trimmed query outputs are
ASCII, where this agrees with the source. -/
def goIsSpace (c : Char) : Bool :=
  c = ' ' || c = '\t' || c = '\n' || c = Char.ofNat 11 || c = Char.ofNat 12 ||
  c = '\r' || c = Char.ofNat 133 || c = Char.ofNat 160

/-- Model of `strings.TrimSpace`. -/
def goTrimSpace (s : GoStr) : GoStr :=
  ((s.dropWhile goIsSpace).reverse.dropWhile goIsSpace).reverse

/-- Function `samePath` from `gitconfig.go`: false when either path is empty,
otherwise equality of the `filepath.Clean`ed forms. -/
def samePath (a b : GoStr) : Bool :=
  if a.isEmpty ∨ b.isEmpty then false
  else decide (goClean a = goClean b)

/-! ### `ensureID` (`service.go`): UUID-v5-style hashing of the path

`ensureID(input)` is `uuid.NewSHA1(uuid.Nil, []byte(input)).String()`:
SHA-1 of the 16 zero bytes of the nil namespace followed by the input
bytes, truncated to 16 bytes, with the version (5) and variant bits set,
rendered as lower-case hyphenated hex.  32-bit words are `Nat` reduced
modulo `2 ^ 32`. -/

def w32 (x : Nat) : Nat := x % 4294967296

def rotl (s x : Nat) : Nat :=
  w32 (x <<< s) ||| (x >>> (32 - s))

def sha1F (t b c d : Nat) : Nat :=
  if t < 20 then (b &&& c) ||| ((b ^^^ 4294967295) &&& d)
  else if t < 40 then b ^^^ c ^^^ d
  else if t < 60 then (b &&& c) ||| (b &&& d) ||| (c &&& d)
  else b ^^^ c ^^^ d

def sha1K (t : Nat) : Nat :=
  if t < 20 then 1518500249
  else if t < 40 then 1859775393
  else if t < 60 then 2400959708
  else 3395469782

/-- Big-endian byte rendering of `v` on `n` bytes. -/
def beBytes : Nat → Nat → List Nat
  | 0, _ => []
  | n + 1, v => beBytes n (v / 256) ++ [v % 256]

/-- Group bytes into big-endian 32-bit words. -/
def toWords : List Nat → List Nat
  | b0 :: b1 :: b2 :: b3 :: rest =>
    (((b0 * 256 + b1) * 256 + b2) * 256 + b3) :: toWords rest
  | _ => []

/-- Extend the 16 schedule words by `count` more. -/
def sha1Extend (ws : List Nat) : Nat → List Nat
  | 0 => ws
  | n + 1 =>
    let len := ws.length
    let nw := rotl 1 ((ws.getD (len - 3) 0) ^^^ (ws.getD (len - 8) 0) ^^^
      (ws.getD (len - 14) 0) ^^^ (ws.getD (len - 16) 0))
    sha1Extend (ws ++ [nw]) n

abbrev Sha1St := Nat × Nat × Nat × Nat × Nat

def sha1Rounds : List Nat → Nat → Sha1St → Sha1St
  | [], _, st => st
  | wt :: rest, t, (a, b, c, d, e) =>
    let temp := w32 (rotl 5 a + sha1F t b c d + e + sha1K t + wt)
    sha1Rounds rest (t + 1) (temp, a, rotl 30 b, c, d)

def sha1Block (h : Sha1St) (wordsOfBlock : List Nat) : Sha1St :=
  let ws := sha1Extend wordsOfBlock 64
  match sha1Rounds ws 0 h, h with
  | (a, b, c, d, e), (h0, h1, h2, h3, h4) =>
    (w32 (h0 + a), w32 (h1 + b), w32 (h2 + c), w32 (h3 + d), w32 (h4 + e))

/-- Fold the compression function over the 64-byte blocks; the fuel is an
upper bound on the number of blocks, making the recursion structural. -/
def sha1Go (h : Sha1St) : Nat → List Nat → Sha1St
  | 0, _ => h
  | _, [] => h
  | fuel + 1, b :: rest =>
    sha1Go (sha1Block h (toWords ((b :: rest).take 64))) fuel ((b :: rest).drop 64)

def sha1Blocks (h : Sha1St) (bs : List Nat) : Sha1St :=
  sha1Go h bs.length bs

/-- Merkle–Damgård padding of SHA-1: `0x80`, zeros to 56 mod 64, then the
bit length on 8 big-endian bytes. -/
def sha1Pad (msg : List Nat) : List Nat :=
  let ml := msg.length
  let k := (56 + 64 - ((ml + 1) % 64)) % 64
  msg ++ 128 :: List.replicate k 0 ++ beBytes 8 (ml * 8)

def sha1Digest (msg : List Nat) : List Nat :=
  match sha1Blocks (1732584193, 4023233417, 2562383102, 271733878, 3285377520)
      (sha1Pad msg) with
  | (h0, h1, h2, h3, h4) =>
    beBytes 4 h0 ++ beBytes 4 h1 ++ beBytes 4 h2 ++ beBytes 4 h3 ++ beBytes 4 h4

def hexDigit (n : Nat) : Char :=
  if n < 10 then Char.ofNat (48 + n) else Char.ofNat (87 + n)

def byteHex (b : Nat) : GoStr := [hexDigit (b / 16), hexDigit (b % 16)]

def hexOf (bs : List Nat) : GoStr := (bs.map byteHex).flatten

/-- Format of `uuid.UUID.String()`: 8-4-4-4-12 lower-case hex with hyphens. -/
def uuidFormat (bs : List Nat) : GoStr :=
  hexOf (bs.take 4) ++ '-' :: hexOf ((bs.drop 4).take 2) ++
  '-' :: hexOf ((bs.drop 6).take 2) ++ '-' :: hexOf ((bs.drop 8).take 2) ++
  '-' :: hexOf (bs.drop 10)

/-- Function `ensureID` from `service.go`: `uuid.NewSHA1(uuid.Nil, []byte(input))`
rendered as a string — a pure function of `input` alone. -/
def ensureID (input : GoStr) : GoStr :=
  let digest := sha1Digest (List.replicate 16 0 ++ input.map Char.toNat)
  let u := digest.take 16
  let u1 := u.set 6 (((u.getD 6 0) &&& 15) ||| 80)
  let u2 := u1.set 8 (((u1.getD 8 0) &&& 63) ||| 128)
  uuidFormat u2

/-! ### `buildRepository` (`gitconfig.go`)

The five plumbing queries are external `git rev-parse` invocations; their
outcomes are supplied as `Except` values (error, or the raw output text),
and the formatted `time.Now()` timestamp as an opaque string, so that
`buildRepository` itself is the pure assembly performed by the source. -/

/-- Enumeration of the `RepositoryType` constants from the models file (not under version
control here); the claims never inspect the concrete values, so the two
constants are modelled as an enumeration. -/
inductive RepositoryType where
  | standard
  | bare
deriving DecidableEq, Repr

/-- Constant `RepoStatusIdle` from the models file, modelled likewise. -/
inductive RepoStatus where
  | idle
deriving DecidableEq, Repr

/-- Record type `Repository` from the data model, fields as read and written by
`buildRepository`. -/
structure Repository where
  id : GoStr
  name : GoStr
  path : GoStr
  root : GoStr
  rtype : RepositoryType
  gitDir : GoStr
  isBare : Bool
  isWorktree : Bool
  isSubmodule : Bool
  lastScanTime : GoStr
  status : RepoStatus
deriving DecidableEq, Repr

/-- Outcomes of the five `git rev-parse` queries issued by
`buildRepository`, in their issue order. -/
structure GitQueryResults where
  showToplevel : Except GoStr GoStr
  gitDirQ : Except GoStr GoStr
  gitCommonDirQ : Except GoStr GoStr
  isBareRepositoryQ : Except GoStr GoStr
  superprojectQ : Except GoStr GoStr

/-- The absolutization step applied to the own and common metadata
directories: trim the query output, and when it is relative join it onto
the resolved top-level directory. -/
def absolutizeDir (topLevel rawOut : GoStr) : GoStr :=
  let d := goTrimSpace rawOut
  if goIsAbs d then d else goJoin topLevel d

/-- Function `buildRepository` from `gitconfig.go`: short-circuit on the first
failing query, reject an empty path and an empty trimmed top-level,
absolutize the two metadata directories, classify bare/worktree/submodule
and derive the name and the stable id. -/
def buildRepository (path : GoStr) (q : GitQueryResults) (now : GoStr) :
    Except GoStr Repository :=
  if path.isEmpty then Except.error (str ("path cannot be empty"))
  else
    match q.showToplevel with
    | Except.error e => Except.error (str ("resolve repository root: ") ++ e)
    | Except.ok topLevelRaw =>
      let topLevel := goTrimSpace topLevelRaw
      if topLevel.isEmpty then Except.error (str ("git repository root is empty"))
      else
        match q.gitDirQ with
        | Except.error e => Except.error (str ("resolve git dir: ") ++ e)
        | Except.ok gitDirRaw =>
          let gitDir := absolutizeDir topLevel gitDirRaw
          match q.gitCommonDirQ with
          | Except.error e => Except.error (str ("resolve git common dir: ") ++ e)
          | Except.ok gitCommonDirRaw =>
            let gitCommonDir := absolutizeDir topLevel gitCommonDirRaw
            match q.isBareRepositoryQ with
            | Except.error e => Except.error (str ("resolve repository type: ") ++ e)
            | Except.ok isBareRaw =>
              let isBare := decide (goTrimSpace isBareRaw = str ("true"))
              let name0 := goBase topLevel
              let name := if name0.isEmpty then str ("repository") else name0
              match q.superprojectQ with
              | Except.error e => Except.error (str ("resolve super project: ") ++ e)
              | Except.ok superProjectRaw =>
                let isSubmodule := !(goTrimSpace superProjectRaw).isEmpty
                let rtype := if isBare then RepositoryType.bare
                  else RepositoryType.standard
                Except.ok
                  { id := ensureID topLevel
                    name := name
                    path := topLevel
                    root := path
                    rtype := rtype
                    gitDir := gitDir
                    isBare := isBare
                    isWorktree := !isBare && !(samePath gitDir gitCommonDir)
                    isSubmodule := isSubmodule
                    lastScanTime := now
                    status := RepoStatus.idle }

/-! ### Concrete inputs used by the witness theorems, and the claim-side
model of the origin-normalizer rule -/

/-- The raw listing of the spec's end-to-end scenario: three triplets,
two for `user.name` (scopes `system` then `local`) and one for
`core.editor` (scope `env`). -/
def demoRaw : GoStr :=
  str ("system\x00file:/etc/gitconfig\x00user.name\nSystem User\x00local\x00file:/work/repo/.git/config:12\x00user.name\nRepo User\x00env\x00command line\x00core.editor\nvim")

def demoEntries : List gitConfigEntry :=
  (parseGitConfigOutput demoRaw).toOption.getD []

/-- A raw listing with a leading all-empty padding triplet and an
empty-key triplet between two retained records. -/
def demoPadRaw : GoStr :=
  str ("\x00\x00\x00system\x00file:/etc/gitconfig\x00user.name\nA\x00x\x00y\x00\nnokey\x00local\x00file:/l\x00user.name\nB")

def demoPadEntries : List gitConfigEntry :=
  (parseGitConfigOutput demoPadRaw).toOption.getD []

/-- The C3 claim's own parse rule, modelled from the spec's words: the
text after the last colon must be a base-10 NON-NEGATIVE integer, i.e. a
non-empty string of decimal digits, to count as a line number. -/
def claimParseNonNeg (s : GoStr) : Option Int :=
  if s ≠ [] ∧ (∀ c ∈ s, isDigitChar c) then some (Int.ofNat (digitsToNat s))
  else none

/-- Model of `NormalizeOrigin` exactly as the C3 claim words it. -/
def normalizeOriginClaim (origin : GoStr) : GoStr × Int :=
  if ¬ (filePrefixStr.isPrefixOf origin) then (origin, 0)
  else
    let rem := origin.drop 5
    match lastColonSplit rem with
    | none => (rem, 0)
    | some (pre, suf) =>
      match claimParseNonNeg suf with
      | some line => (pre, line)
      | none => (rem, 0)

/-- A concrete all-successful query bundle for the topology witnesses:
a plain non-bare repository at `/work/repo`. -/
def wtQueries : GitQueryResults :=
  ⟨Except.ok (str ("/work/repo
")), Except.ok (str (".git
")),
    Except.ok (str (".git
")), Except.ok (str ("false
")),
    Except.ok (str (""))⟩

def wtRepoFallback : Repository :=
  { id := [], name := [], path := [], root := [],
    rtype := RepositoryType.standard, gitDir := [], isBare := false,
    isWorktree := false, isSubmodule := false, lastScanTime := [],
    status := RepoStatus.idle }

def repoOrDefault (x : Except GoStr Repository) : Repository :=
  match x with
  | Except.ok r => r
  | Except.error _ => wtRepoFallback

def wtRepo : Repository :=
  repoOrDefault (buildRepository (str ("/work/repo")) wtQueries (str ("t0")))

/-- A second resolution of the same top-level directory: different
candidate path, differently formatted raw outputs, different timestamp. -/
def wtQueries₂ : GitQueryResults :=
  ⟨Except.ok (str ("  /work/repo 
")), Except.ok (str ("/work/repo/.git
")),
    Except.ok (str ("/work/repo/.git
")), Except.ok (str ("false
")),
    Except.ok (str (""))⟩

def wtRepo₂ : Repository :=
  repoOrDefault (buildRepository (str ("/work/repo/sub")) wtQueries₂
    (str ("t1")))

/-! ### Lemmas about the tokenizer -/

/-- The `order` fields produced by the triplet loop are consecutive,
starting at the initial counter value. -/
theorem parseTriplets_orders : ∀ (cs : List GoStr) (n : Nat),
    (parseTriplets cs n).map gitConfigEntry.order =
      List.range' n (parseTriplets cs n).length
  | [], _ => rfl
  | [_], _ => rfl
  | [_, _], _ => rfl
  | s :: o :: kv :: rest, n => by
    by_cases h1 : (s.isEmpty && o.isEmpty && kv.isEmpty) = true
    · simp only [parseTriplets, h1, if_true]
      exact parseTriplets_orders rest n
    · by_cases h2 : (splitKeyValue kv).fst.isEmpty = true
      · simp only [parseTriplets, h1, if_false, h2, if_true, Bool.false_eq_true]
        exact parseTriplets_orders rest n
      · simp only [parseTriplets, h1, if_false, h2, if_true, Bool.false_eq_true,
          List.map_cons, List.length_cons, List.range'_succ]
        exact congrArg (n :: ·) (parseTriplets_orders rest (n + 1))

/-- Dropping rule of the triplet loop: a triplet whose key/value unit
yields an empty key (which includes the all-empty padding triplet) is
skipped without advancing the `order` counter. -/
theorem parseTriplets_drop (s o kv : GoStr) (rest : List GoStr) (n : Nat)
    (h : (splitKeyValue kv).fst = []) :
    parseTriplets (s :: o :: kv :: rest) n = parseTriplets rest n := by
  have h2 : (splitKeyValue kv).fst.isEmpty = true := by
    simp [List.isEmpty_iff, h]
  by_cases h1 : (s.isEmpty && o.isEmpty && kv.isEmpty) = true
  · simp only [parseTriplets, h1, if_true]
  · simp only [parseTriplets, h1, if_false, h2, if_true, Bool.false_eq_true]

/-- Records retained from a raw listing carry strictly increasing `order`
values. -/
theorem parse_pairwise_lt {raw : GoStr} {es : List gitConfigEntry}
    (hok : parseGitConfigOutput raw = Except.ok es) :
    es.Pairwise (fun a b => a.order < b.order) := by
  have hes : es.map gitConfigEntry.order = List.range' 0 es.length := by
    unfold parseGitConfigOutput at hok
    by_cases h : raw.isEmpty = true
    · simp only [h, if_true] at hok
      cases hok
      rfl
    · simp only [h, if_false, Bool.false_eq_true, Except.ok.injEq] at hok
      subst hok
      exact parseTriplets_orders _ 0
  have := List.pairwise_lt_range' 0 es.length 1
  rw [← hes, List.pairwise_map] at this
  exact this

/-! ### Lemmas about the stable sort -/

theorem insertByOrder_of_le {x : gitConfigEntry} :
    ∀ {l : List gitConfigEntry}, (∀ b ∈ l, x.order ≤ b.order) →
      insertByOrder x l = x :: l
  | [], _ => rfl
  | b :: t, h => by
    have hb : x.order ≤ b.order := h b (List.mem_cons_self b t)
    simp [insertByOrder, hb]

/-- A list already sorted by ascending `order` is left unchanged by the
stable sort (the defensive re-sort of `buildConfigValues` is the identity
on the tokenizer's output). -/
theorem sortByOrder_of_sorted :
    ∀ {l : List gitConfigEntry},
      l.Pairwise (fun a b => a.order ≤ b.order) → sortByOrder l = l
  | [], _ => rfl
  | x :: xs, h => by
    rw [List.pairwise_cons] at h
    simp only [sortByOrder, sortByOrder_of_sorted h.2]
    exact insertByOrder_of_le h.1

/-- In a list with strictly increasing `order`, the last element is the
unique maximum. -/
theorem getLast?_max :
    ∀ {l : List gitConfigEntry} {a : gitConfigEntry},
      l.Pairwise (fun x y => x.order < y.order) → l.getLast? = some a →
      ∀ x ∈ l, x = a ∨ x.order < a.order
  | [], _, _, hl, _ => by cases hl
  | [b], a, hp, hl, x => by
    simp only [List.getLast?_singleton, Option.some.injEq] at hl
    subst hl
    intro hx
    simp only [List.mem_singleton] at hx
    exact Or.inl hx
  | b :: c :: t, a, hp, hl, x => by
    intro hx
    rw [List.getLast?_cons_cons] at hl
    rw [List.pairwise_cons] at hp
    have hmem : a ∈ c :: t := List.mem_of_getLast?_eq_some hl
    rcases List.mem_cons.mp hx with hxb | hxt
    · subst hxb
      exact Or.inr (hp.1 a hmem)
    · exact getLast?_max hp.2 hl x hxt

/-- The `order` values strictly increase on the key group when they strictly
increase on the whole listing. -/
theorem filterKey_pairwise_lt {es : List gitConfigEntry} {k : GoStr}
    (h : es.Pairwise (fun a b => a.order < b.order)) :
    (filterKey es k).Pairwise (fun a b => a.order < b.order) :=
  List.Pairwise.sublist (List.filter_sublist es) h

/-- The defensive re-sort of `buildConfigValues` is the identity on any
key group drawn from a raw listing. -/
theorem sortByOrder_filterKey_of_parse {raw : GoStr}
    {es : List gitConfigEntry} {k : GoStr}
    (hok : parseGitConfigOutput raw = Except.ok es) :
    sortByOrder (filterKey es k) = filterKey es k :=
  sortByOrder_of_sorted
    ((filterKey_pairwise_lt (parse_pairwise_lt hok)).imp Nat.le_of_lt)

/-! ### Claim theorems: the Precedence Resolver -/

/-- C1: for every raw listing and every key appearing among the retained
records, the effective value reported for that key is the value of the
retained record with the maximum sequence (`order`) among that key's
records, and the reported source is that record's scope, file and line —
never those of any earlier record. -/
theorem effective_value_is_max_sequence (raw : GoStr)
    (es : List gitConfigEntry) (k : GoStr)
    (hok : parseGitConfigOutput raw = Except.ok es)
    (hne : filterKey es k ≠ []) :
    ∃ v, buildConfigValues es k = some v ∧
      ∃ e, e ∈ filterKey es k ∧
        (∀ x ∈ filterKey es k, x = e ∨ x.order < e.order) ∧
        v.value = e.value ∧ v.source.scope = e.scope ∧
        v.source.file = e.file ∧ v.source.line = e.line := by
  have hplt := filterKey_pairwise_lt (k := k) (parse_pairwise_lt hok)
  have hsorted := sortByOrder_filterKey_of_parse (k := k) hok
  obtain ⟨a, ha⟩ : ∃ a, (filterKey es k).getLast? = some a := by
    cases h : (filterKey es k).getLast? with
    | none => exact absurd (List.getLast?_eq_none_iff.mp h) hne
    | some a => exact ⟨a, rfl⟩
  have hbuild : buildConfigValues es k = some
      { key := k, value := a.value
        source := { scope := a.scope, file := a.file, line := a.line }
        overrides :=
          if (filterKey es k).length > 1 then
            some (((filterKey es k).dropLast).reverse.map mkOverride)
          else none
        lastModified := [] } := by
    unfold buildConfigValues
    rw [hsorted, ha]
  exact ⟨_, hbuild, a, List.mem_of_getLast?_eq_some ha,
    getLast?_max hplt ha, rfl, rfl, rfl, rfl⟩

/-- Witness for C1 at the end-to-end scenario's key `user.name`. -/
theorem effective_value_is_max_sequence_witness :
    ∃ v, buildConfigValues demoEntries (str ("user.name")) = some v ∧
      ∃ e, e ∈ filterKey demoEntries (str ("user.name")) ∧
        (∀ x ∈ filterKey demoEntries (str ("user.name")),
          x = e ∨ x.order < e.order) ∧
        v.value = e.value ∧ v.source.scope = e.scope ∧
        v.source.file = e.file ∧ v.source.line = e.line :=
  effective_value_is_max_sequence demoRaw demoEntries (str ("user.name")) rfl
    (by decide)

/-- C2: for every key with `n ≥ 1` retained records, the resolved entry's
override list has length `n - 1` and lists the key's records in strictly
descending original-sequence order with the effective (maximal) record
removed: second-highest sequence first, lowest sequence last. -/
theorem overrides_length_and_descending (raw : GoStr)
    (es : List gitConfigEntry) (k : GoStr)
    (hok : parseGitConfigOutput raw = Except.ok es)
    (hne : filterKey es k ≠ []) :
    ∃ v, buildConfigValues es k = some v ∧
      (ovList v).length = (filterKey es k).length - 1 ∧
      ∃ sorted : List gitConfigEntry, sorted.Perm (filterKey es k) ∧
        sorted.Pairwise (fun a b => b.order < a.order) ∧
        ovList v = sorted.tail.map mkOverride := by
  have hplt := filterKey_pairwise_lt (k := k) (parse_pairwise_lt hok)
  have hsorted := sortByOrder_filterKey_of_parse (k := k) hok
  obtain ⟨a, ha⟩ : ∃ a, (filterKey es k).getLast? = some a := by
    cases h : (filterKey es k).getLast? with
    | none => exact absurd (List.getLast?_eq_none_iff.mp h) hne
    | some a => exact ⟨a, rfl⟩
  have hrev : (filterKey es k).reverse.Pairwise (fun a b => b.order < a.order) :=
    List.pairwise_reverse.mpr hplt
  have hbuild : buildConfigValues es k = some
      { key := k, value := a.value
        source := { scope := a.scope, file := a.file, line := a.line }
        overrides :=
          if (filterKey es k).length > 1 then
            some (((filterKey es k).dropLast).reverse.map mkOverride)
          else none
        lastModified := [] } := by
    unfold buildConfigValues
    rw [hsorted, ha]
  refine ⟨_, hbuild, ?_, (filterKey es k).reverse, List.reverse_perm _, hrev, ?_⟩
  · by_cases hlen : (filterKey es k).length > 1
    · simp [ovList, hlen]
    · have h0 : (filterKey es k).length ≠ 0 := fun hz => hne (List.length_eq_zero.mp hz)
      obtain ⟨b, hb⟩ := List.length_eq_one.mp (by omega : (filterKey es k).length = 1)
      simp [ovList, hlen, hb]
  · by_cases hlen : (filterKey es k).length > 1
    · simp [ovList, hlen, List.tail_reverse]
    · have h0 : (filterKey es k).length ≠ 0 := fun hz => hne (List.length_eq_zero.mp hz)
      obtain ⟨b, hb⟩ := List.length_eq_one.mp (by omega : (filterKey es k).length = 1)
      simp [ovList, hlen, hb]

/-- Witness for C2 at the end-to-end scenario's key `user.name`. -/
theorem overrides_length_and_descending_witness :
    ∃ v, buildConfigValues demoEntries (str ("user.name")) = some v ∧
      (ovList v).length = (filterKey demoEntries (str ("user.name"))).length - 1 ∧
      ∃ sorted : List gitConfigEntry, sorted.Perm (filterKey demoEntries (str ("user.name"))) ∧
        sorted.Pairwise (fun a b => b.order < a.order) ∧
        ovList v = sorted.tail.map mkOverride :=
  overrides_length_and_descending demoRaw demoEntries (str ("user.name")) rfl
    (by decide)

/-- C7 (amended): for every key with exactly one retained record, the
resolved entry carries no overrides — the `Overrides` field is never
assigned and stays `nil` (absent), whose length is zero. -/
theorem single_record_overrides_nil (raw : GoStr)
    (es : List gitConfigEntry) (k : GoStr)
    (hok : parseGitConfigOutput raw = Except.ok es)
    (h1 : (filterKey es k).length = 1) :
    (buildConfigValues es k).map ConfigValue.overrides = some none := by
  have hsorted := sortByOrder_filterKey_of_parse (k := k) hok
  obtain ⟨a, ha⟩ := List.length_eq_one.mp h1
  unfold buildConfigValues
  rw [hsorted, ha]
  rfl

/-- Witness for C7's amended statement at the end-to-end scenario's
single-record key `core.editor`. -/
theorem single_record_overrides_nil_witness :
    (buildConfigValues demoEntries (str ("core.editor"))).map
      ConfigValue.overrides = some none :=
  single_record_overrides_nil demoRaw demoEntries (str ("core.editor")) rfl
    (by decide)

/-- Counterexample for C7 as stated: a key with exactly one retained
record gets `Overrides = nil` (an absent list, serialized as absent),
not a present zero-length sequence. -/
theorem single_record_overrides_cex :
    (buildConfigValues demoEntries (str ("core.editor"))).map
      ConfigValue.overrides = some none ∧
    (some (none : Option (List ConfigOverride)) ≠
      some (some ([] : List ConfigOverride))) := by
  exact ⟨rfl, by decide⟩

/-! ### Claim theorems: the Record Tokenizer -/

/-- C4: sequence numbers are assigned only to retained records, starting
at 0 and incrementing by one per retained record, so the retained
records' `order` values are exactly `0 .. k-1` with no gaps; a triplet
whose key comes out empty (in particular the all-empty padding triplet)
is skipped without consuming a sequence slot. -/
theorem sequence_numbering_dense :
    (∀ raw es, parseGitConfigOutput raw = Except.ok es →
      es.map gitConfigEntry.order = List.range es.length) ∧
    (∀ (s o kv : GoStr) (rest : List GoStr) (n : Nat),
      (splitKeyValue kv).fst = [] →
      parseTriplets (s :: o :: kv :: rest) n = parseTriplets rest n) := by
  constructor
  · intro raw es hok
    rw [List.range_eq_range']
    unfold parseGitConfigOutput at hok
    by_cases h : raw.isEmpty = true
    · simp only [h, if_true] at hok
      cases hok
      rfl
    · simp only [h, if_false, Bool.false_eq_true, Except.ok.injEq] at hok
      subst hok
      exact parseTriplets_orders _ 0
  · exact parseTriplets_drop

/-- Witness for C4: on the padded listing the two retained records get
orders `0, 1`, and an empty-key triplet is dropped without touching the
counter. -/
theorem sequence_numbering_dense_witness :
    (parseGitConfigOutput demoPadRaw = Except.ok demoPadEntries ∧
      demoPadEntries.map gitConfigEntry.order = List.range demoPadEntries.length) ∧
    parseTriplets [str ("x"), str ("y"), str ("\nnokey")] 5 = parseTriplets [] 5 :=
  ⟨⟨rfl, sequence_numbering_dense.1 demoPadRaw demoPadEntries rfl⟩,
    sequence_numbering_dense.2 (str ("x")) (str ("y")) (str ("\nnokey")) [] 5
      (by decide)⟩

/-- Complete leading triplets followed by fewer than three dangling
chunks parse exactly like the complete triplets alone. -/
theorem parseTriplets_dangling :
    ∀ (cs : List GoStr), cs.length % 3 = 0 →
      ∀ (ds : List GoStr), ds.length < 3 →
        ∀ n, parseTriplets (cs ++ ds) n = parseTriplets cs n
  | [], _, ds, hds, n => by
    match ds with
    | [] => rfl
    | [_] => rfl
    | [_, _] => rfl
    | _ :: _ :: _ :: _ => exact absurd hds (by simp)
  | [x], h, _, _, _ => by simp at h
  | [x, y], h, _, _, _ => by simp at h
  | s :: o :: kv :: rest, h, ds, hds, n => by
    have h3 : rest.length % 3 = 0 := by
      simp only [List.length_cons] at h
      omega
    show parseTriplets (s :: o :: kv :: (rest ++ ds)) n = _
    by_cases h1 : (s.isEmpty && o.isEmpty && kv.isEmpty) = true
    · simp only [parseTriplets, h1, if_true]
      exact parseTriplets_dangling rest h3 ds hds n
    · by_cases h2 : (splitKeyValue kv).fst.isEmpty = true
      · simp only [parseTriplets, h1, if_false, h2, if_true, Bool.false_eq_true]
        exact parseTriplets_dangling rest h3 ds hds n
      · simp only [parseTriplets, h1, if_false, h2, Bool.false_eq_true]
        exact congrArg _ (parseTriplets_dangling rest h3 ds hds (n + 1))

/-- C5: the tokenizer never returns an error: empty input yields an empty
record sequence, and a dangling partial group of one or two fields after
the complete triplets is silently ignored. -/
theorem tokenizer_never_fails :
    (∀ raw, ∃ es, parseGitConfigOutput raw = Except.ok es) ∧
    parseGitConfigOutput [] = Except.ok [] ∧
    (∀ (cs : List GoStr) (d₁ d₂ : GoStr) (n : Nat), cs.length % 3 = 0 →
      parseTriplets (cs ++ [d₁]) n = parseTriplets cs n ∧
      parseTriplets (cs ++ [d₁, d₂]) n = parseTriplets cs n) := by
  refine ⟨?_, rfl, ?_⟩
  · intro raw
    unfold parseGitConfigOutput
    by_cases h : raw.isEmpty = true
    · exact ⟨[], by rw [if_pos h]⟩
    · exact ⟨_, by rw [if_neg h]⟩
  · intro cs d₁ d₂ n h
    exact ⟨parseTriplets_dangling cs h [d₁] (by simp) n,
      parseTriplets_dangling cs h [d₁, d₂] (by simp) n⟩

/-- Witness for C5: one complete triplet plus one or two dangling fields
parses like the complete triplet alone. -/
theorem tokenizer_never_fails_witness :
    parseTriplets [str ("a"), str ("b"), str ("k\nv"), str ("dangling")] 0 =
      parseTriplets [str ("a"), str ("b"), str ("k\nv")] 0 ∧
    parseTriplets [str ("a"), str ("b"), str ("k\nv"), str ("d1"), str ("d2")] 0 =
      parseTriplets [str ("a"), str ("b"), str ("k\nv")] 0 :=
  ⟨(tokenizer_never_fails.2.2 [str ("a"), str ("b"), str ("k\nv")]
      (str ("dangling")) (str ("d2")) 0 (by decide)).1,
    (tokenizer_never_fails.2.2 [str ("a"), str ("b"), str ("k\nv")]
      (str ("d1")) (str ("d2")) 0 (by decide)).2⟩

/-! ### Claim theorems: the Origin Normalizer -/

/-- A string without a colon has no last-colon decomposition. -/
theorem lastColonSplit_eq_none : ∀ {s : GoStr}, ':' ∉ s →
    lastColonSplit s = none
  | [], _ => rfl
  | c :: rest, h => by
    have hc : ¬ (c = ':') := fun hc => h (hc ▸ List.mem_cons_self c rest)
    have hr : ':' ∉ rest := fun hr => h (List.mem_cons_of_mem c hr)
    simp [lastColonSplit, lastColonSplit_eq_none hr, hc]

/-- Function `lastColonSplit` splits at the last colon: the suffix after it is
colon-free. -/
theorem lastColonSplit_append : ∀ (pre suf : GoStr), ':' ∉ suf →
    lastColonSplit (pre ++ ':' :: suf) = some (pre, suf)
  | [], suf, h => by
    simp [lastColonSplit, lastColonSplit_eq_none h]
  | c :: pre, suf, h => by
    simp [lastColonSplit, lastColonSplit_append pre suf h]

/-- Go `Atoi` succeeds on an unsigned in-range digit string and returns its
decimal value. -/
theorem goAtoi_digits (ds : GoStr) (hne : ds ≠ [])
    (hdig : ∀ c ∈ ds, isDigitChar c)
    (hrange : Int.ofNat (digitsToNat ds) ≤ 2 ^ 63 - 1) :
    goAtoi ds = some (Int.ofNat (digitsToNat ds)) := by
  match ds, hne with
  | c :: rest, _ =>
    have hc : isDigitChar c = true := hdig c (List.mem_cons_self c rest)
    have hcm : ¬ (c = '-' ∨ c = '+') := by
      rintro (h | h) <;> subst h <;> simp [isDigitChar, Char.le_def] at hc
    have hcneg : ¬ (c = '-') := fun h => hcm (Or.inl h)
    have hall : (c :: rest).all isDigitChar = true := List.all_eq_true.mpr hdig
    have hge : -(2 ^ 63 : Int) ≤ Int.ofNat (digitsToNat (c :: rest)) :=
      le_trans (by norm_num) (Int.ofNat_nonneg _)
    simp only [goAtoi, if_neg hcm, hall, if_true, List.isEmpty_cons,
      Bool.false_eq_true, if_false, if_neg hcneg, if_pos (And.intro hge hrange)]

/-- Go `Atoi` succeeds on a negative in-range digit string. -/
theorem goAtoi_neg_digits (ds : GoStr) (hne : ds ≠ [])
    (hdig : ∀ c ∈ ds, isDigitChar c)
    (hrange : -(2 ^ 63) ≤ -(Int.ofNat (digitsToNat ds))) :
    goAtoi ('-' :: ds) = some (-(Int.ofNat (digitsToNat ds))) := by
  have hall : ds.all isDigitChar = true := List.all_eq_true.mpr hdig
  have hne' : ds.isEmpty = false := by
    cases ds with
    | nil => exact absurd rfl hne
    | cons a t => rfl
  have hle : -(Int.ofNat (digitsToNat ds)) ≤ 2 ^ 63 - 1 :=
    le_trans (Int.neg_nonpos_of_nonneg (Int.ofNat_nonneg _)) (by norm_num)
  simp only [goAtoi, eq_self_iff_true, true_or, if_true, hne', Bool.false_eq_true,
    if_false, hall, if_pos (And.intro hrange hle)]

/-- Counterexample for C3 as stated: on `file:/p:-3` the claim's
non-negative-integer rule fails the parse and predicts `("/p:-3", 0)`,
but the source's `strconv.Atoi` accepts the signed suffix and the code
returns `("/p", -3)`. -/
theorem normalize_origin_cex :
    normalizeOrigin (str ("file:/p:-3")) = (str ("/p"), (-3 : Int)) ∧
    normalizeOriginClaim (str ("file:/p:-3")) = (str ("/p:-3"), (0 : Int)) ∧
    normalizeOrigin (str ("file:/p:-3")) ≠
      normalizeOriginClaim (str ("file:/p:-3")) := by
  exact ⟨by decide, by decide, by decide⟩

/-- C3 (amended): `NormalizeOrigin` on a `file:`-prefixed string strips
the marker; with no colon in the remainder the whole remainder is the
path and the line is 0; otherwise the text after the LAST colon is parsed
with Go's `Atoi` — a base-10 integer with an optional leading sign, in
the 64-bit range — and on success the part before that colon is the path
with the parsed (possibly negative) integer as the line, while on failure
the entire remainder, colon included, is the path and the line is 0.
Unsigned in-range digit strings parse to their decimal value. -/
theorem normalize_origin_file_rule (rem : GoStr) :
    ((':' ∉ rem) → normalizeOrigin (filePrefixStr ++ rem) = (rem, 0)) ∧
    (∀ pre suf : GoStr, rem = pre ++ ':' :: suf → (':' ∉ suf) →
      normalizeOrigin (filePrefixStr ++ rem) =
        (match goAtoi suf with
         | some n => (pre, n)
         | none => (rem, 0))) ∧
    (∀ ds : GoStr, ds ≠ [] → (∀ c ∈ ds, isDigitChar c) →
      Int.ofNat (digitsToNat ds) ≤ 2 ^ 63 - 1 →
      goAtoi ds = some (Int.ofNat (digitsToNat ds))) := by
  have hpre : filePrefixStr.isPrefixOf (filePrefixStr ++ rem) = true :=
    Iff.mpr List.isPrefixOf_iff_prefix (List.prefix_append _ _)
  have hemp : (filePrefixStr ++ rem).isEmpty = false := rfl
  have hdrop : (filePrefixStr ++ rem).drop 5 = rem :=
    List.drop_left' (by rfl)
  refine ⟨?_, ?_, goAtoi_digits⟩
  · intro hnc
    simp only [normalizeOrigin, hemp, Bool.false_eq_true, if_false, hpre,
      not_true, hdrop, lastColonSplit_eq_none hnc]
  · intro pre suf hsplit hnc
    subst hsplit
    have hpre' : filePrefixStr.isPrefixOf
        (filePrefixStr ++ (pre ++ ':' :: suf)) = true :=
      Iff.mpr List.isPrefixOf_iff_prefix (List.prefix_append _ _)
    have hemp' : (filePrefixStr ++ (pre ++ ':' :: suf)).isEmpty = false := rfl
    have hdrop' : (filePrefixStr ++ (pre ++ ':' :: suf)).drop 5 =
        pre ++ ':' :: suf :=
      List.drop_left' (by rfl)
    simp only [normalizeOrigin, hemp', Bool.false_eq_true, if_false, hpre',
      not_true, hdrop', lastColonSplit_append pre suf hnc]

/-- Witness for C3's amended statement: the spec's own examples
`file:/repo/.git/config:32` and `file:C:/dev/.gitconfig`. -/
theorem normalize_origin_file_rule_witness :
    normalizeOrigin (filePrefixStr ++ str ("/repo/.git/config:32")) =
      (str ("/repo/.git/config"), (32 : Int)) ∧
    normalizeOrigin (filePrefixStr ++ str ("C:/dev/.gitconfig")) =
      (str ("C:/dev/.gitconfig"), (0 : Int)) := by
  constructor
  · have h := (normalize_origin_file_rule (str ("/repo/.git/config:32"))).2.1
      (str ("/repo/.git/config")) (str ("32")) (by decide) (by decide)
    rw [show goAtoi (str ("32")) = some 32 from by decide] at h
    exact h
  · have h := (normalize_origin_file_rule (str ("C:/dev/.gitconfig"))).2.1
      (str ("C")) (str ("/dev/.gitconfig")) (by decide) (by decide)
    rw [show goAtoi (str ("/dev/.gitconfig")) = none from by decide] at h
    exact h

/-! ### Lemmas about the path helpers -/

/-- Every component held by the `Clean` output stack is non-empty. -/
theorem cleanAcc_ne_nil (rooted : Bool) :
    ∀ (comps acc : List GoStr), (∀ x ∈ acc, x ≠ []) →
      ∀ x ∈ cleanAcc rooted acc comps, x ≠ []
  | [], acc, hacc => by
    intro x hx
    exact hacc x (List.mem_reverse.mp hx)
  | comp :: rest, acc, hacc => by
    intro x hx
    unfold cleanAcc at hx
    by_cases h1 : comp.isEmpty ∨ comp = dotStr
    · rw [if_pos h1] at hx
      exact cleanAcc_ne_nil rooted rest acc hacc x hx
    · rw [if_neg h1] at hx
      have hcomp : comp ≠ [] := fun hc => h1 (Or.inl (by simp [hc]))
      by_cases h2 : comp = dotDotStr
      · rw [if_pos h2] at hx
        cases acc with
        | nil =>
          dsimp only at hx
          by_cases hr : rooted = true
          · rw [if_pos hr] at hx
            exact cleanAcc_ne_nil rooted rest [] (by simp) x hx
          · rw [if_neg hr] at hx
            refine cleanAcc_ne_nil rooted rest [dotDotStr] ?_ x hx
            intro y hy
            rw [List.mem_singleton] at hy
            subst hy
            decide
        | cons top below =>
          dsimp only at hx
          by_cases h3 : ¬ rooted = true ∧ top = dotDotStr
          · rw [if_pos h3] at hx
            refine cleanAcc_ne_nil rooted rest (dotDotStr :: top :: below) ?_ x hx
            intro y hy
            rcases List.mem_cons.mp hy with h | h
            · subst h; decide
            · exact hacc y h
          · rw [if_neg h3] at hx
            exact cleanAcc_ne_nil rooted rest below
              (fun y hy => hacc y (List.mem_cons_of_mem top hy)) x hx
      · rw [if_neg h2] at hx
        refine cleanAcc_ne_nil rooted rest (comp :: acc) ?_ x hx
        intro y hy
        rcases List.mem_cons.mp hy with h | h
        · subst h; exact hcomp
        · exact hacc y h

theorem joinComps_ne_nil :
    ∀ (l : List GoStr), (∀ x ∈ l, x ≠ []) → l ≠ [] → joinComps l ≠ []
  | [], _, hne => absurd rfl hne
  | [x], h, _ => by
    simpa [joinComps] using h x (List.mem_singleton_self x)
  | x :: y :: rest, h, _ => by
    have hx : x ≠ [] := h x (List.mem_cons_self _ _)
    simp [joinComps, hx]

/-- Model of `filepath.Clean` never returns the empty path. -/
theorem goClean_ne_nil : ∀ p : GoStr, goClean p ≠ []
  | [] => by decide
  | c :: rest => by
    unfold goClean
    by_cases hr : c = '/'
    · subst hr
      simp
    · simp only [decide_eq_false hr, Bool.false_eq_true, if_false, if_neg hr]
      by_cases hc : cleanAcc false [] (goSplit '/' (c :: rest)) = []
      · simp [hc, dotStr]
      · have hj := joinComps_ne_nil _
          (cleanAcc_ne_nil false _ [] (by simp)) hc
        simp [hc, hj]

theorem goJoin_ne_nil (a b : GoStr) (ha : a ≠ []) : goJoin a b ≠ [] := by
  unfold goJoin
  have ha' : a.isEmpty = false := by
    cases a with
    | nil => exact absurd rfl ha
    | cons x t => rfl
  rw [if_neg (by simp [ha'])]
  rw [if_neg (by simp [ha'])]
  by_cases hb : b.isEmpty = true
  · rw [if_pos hb]; exact goClean_ne_nil a
  · rw [if_neg hb]; exact goClean_ne_nil _

/-- The absolutized metadata directories of a repository with a non-empty
top-level are non-empty. -/
theorem absolutizeDir_ne_nil (topLevel rawOut : GoStr) (h : topLevel ≠ []) :
    absolutizeDir topLevel rawOut ≠ [] := by
  unfold absolutizeDir
  by_cases habs : goIsAbs (goTrimSpace rawOut) = true
  · rw [if_pos habs]
    cases hd : goTrimSpace rawOut with
    | nil => rw [hd] at habs; exact absurd habs (by decide)
    | cons x t => simp
  · rw [if_neg habs]
    exact goJoin_ne_nil _ _ h

/-- Model of `filepath.Base` never returns the empty string (its result for an
empty input is `"."` and for an all-slash input `"/"`). -/
theorem goBase_ne_nil (p : GoStr) : goBase p ≠ [] := by
  unfold goBase
  dsimp only
  split
  · decide
  · split
    · decide
    · rename_i h2
      intro hc
      rw [hc] at h2
      exact h2 rfl

/-- Characterization of `samePath`: true exactly on two non-empty paths
with equal cleaned forms. -/
theorem samePath_eq_true_iff (a b : GoStr) :
    samePath a b = true ↔ a ≠ [] ∧ b ≠ [] ∧ goClean a = goClean b := by
  constructor
  · intro hsp
    unfold samePath at hsp
    by_cases h : (a.isEmpty = true ∨ b.isEmpty = true)
    · rw [if_pos h] at hsp; cases hsp
    · rw [if_neg h] at hsp
      push_neg at h
      refine ⟨?_, ?_, of_decide_eq_true hsp⟩
      · exact fun hc => h.1 (by simp [hc])
      · exact fun hc => h.2 (by simp [hc])
  · rintro ⟨ha, hb, hcl⟩
    have ha' : a.isEmpty = false := by
      cases a with
      | nil => exact absurd rfl ha
      | cons x t => rfl
    have hb' : b.isEmpty = false := by
      cases b with
      | nil => exact absurd rfl hb
      | cons x t => rfl
    unfold samePath
    rw [if_neg (by simp [ha', hb'])]
    exact decide_eq_true hcl

/-! ### Claim theorems: the Path Reconciler and Topology Resolver -/

/-- C10: `samePath` returns false whenever either argument is empty — in
particular two empty paths are not effectively equal — and on two
non-empty arguments it returns true iff their `filepath.Clean`ed forms
are identical. -/
theorem samePath_characterization :
    samePath [] [] = false ∧
    (∀ b : GoStr, samePath [] b = false) ∧
    (∀ a : GoStr, samePath a [] = false) ∧
    (∀ a b : GoStr,
      samePath a b = true ↔ a ≠ [] ∧ b ≠ [] ∧ goClean a = goClean b) := by
  refine ⟨rfl, ?_, ?_, samePath_eq_true_iff⟩
  · intro b
    simp [samePath]
  · intro a
    simp [samePath]

/-- Witness for C10: two non-empty spellings of the same directory are
effectively equal, and an empty argument is never equal to anything. -/
theorem samePath_characterization_witness :
    samePath (str ("/a/b/../c")) (str ("/a/./c")) = true ∧
    samePath (str ("")) (str ("")) = false :=
  ⟨(samePath_characterization.2.2.2 (str ("/a/b/../c")) (str ("/a/./c"))).mpr
    ⟨by decide, by decide, by decide⟩,
    samePath_characterization.1⟩

set_option maxHeartbeats 1000000 in
/-- Field equations of a successfully built `Repository`: the expensive
unfolding of `buildRepository` on all-successful queries, shared by the
topology claims. -/
theorem buildRepository_ok_spec (path tl gd gcd bare sp now : GoStr)
    (repo : Repository)
    (hok : buildRepository path
      ⟨Except.ok tl, Except.ok gd, Except.ok gcd, Except.ok bare,
        Except.ok sp⟩ now = Except.ok repo) :
    goTrimSpace tl ≠ [] ∧
    repo.id = ensureID (goTrimSpace tl) ∧
    repo.name = (if (goBase (goTrimSpace tl)).isEmpty then str ("repository")
      else goBase (goTrimSpace tl)) ∧
    repo.gitDir = absolutizeDir (goTrimSpace tl) gd ∧
    repo.isWorktree = (!repo.isBare &&
      !(samePath (absolutizeDir (goTrimSpace tl) gd)
        (absolutizeDir (goTrimSpace tl) gcd))) := by
  unfold buildRepository at hok
  by_cases hp : path.isEmpty = true
  · rw [if_pos hp] at hok; cases hok
  · rw [if_neg hp] at hok
    dsimp only at hok
    by_cases ht : (goTrimSpace tl).isEmpty = true
    · rw [if_pos ht] at hok
      cases hok
    · rw [if_neg ht] at hok
      have htl : goTrimSpace tl ≠ [] := by
        cases hd : goTrimSpace tl with
        | nil => rw [hd] at ht; exact absurd rfl ht
        | cons x t => simp
      cases hok
      exact ⟨htl, rfl, rfl, rfl, rfl⟩

/-- C6: for every successfully resolved repository, `isWorktree` holds
iff the repository is not bare and the cleaned own metadata directory
differs from the cleaned common metadata directory; in particular
`isBare` and `isWorktree` are never both true and a bare repository is
never classified as a worktree. -/
theorem worktree_classification (path tl gd gcd bare sp now : GoStr)
    (repo : Repository)
    (hok : buildRepository path
      ⟨Except.ok tl, Except.ok gd, Except.ok gcd, Except.ok bare,
        Except.ok sp⟩ now = Except.ok repo) :
    (repo.isWorktree = true ↔
      (repo.isBare = false ∧
        goClean repo.gitDir ≠
          goClean (absolutizeDir (goTrimSpace tl) gcd))) ∧
    ¬ (repo.isBare = true ∧ repo.isWorktree = true) := by
  obtain ⟨htl, _, _, hgdir, hwt⟩ :=
    buildRepository_ok_spec path tl gd gcd bare sp now repo hok
  have hgd : absolutizeDir (goTrimSpace tl) gd ≠ [] :=
    absolutizeDir_ne_nil _ _ htl
  have hgc : absolutizeDir (goTrimSpace tl) gcd ≠ [] :=
    absolutizeDir_ne_nil _ _ htl
  have hsp : samePath (absolutizeDir (goTrimSpace tl) gd)
      (absolutizeDir (goTrimSpace tl) gcd) = true ↔
      goClean (absolutizeDir (goTrimSpace tl) gd) =
        goClean (absolutizeDir (goTrimSpace tl) gcd) := by
    rw [samePath_eq_true_iff]
    exact ⟨fun h => h.2.2, fun h => ⟨hgd, hgc, h⟩⟩
  rw [hgdir]
  constructor
  · rw [hwt, Bool.and_eq_true, Bool.not_eq_true', Bool.not_eq_true']
    constructor
    · rintro ⟨h1, h2⟩
      refine ⟨h1, fun hc => ?_⟩
      rw [hsp.mpr hc] at h2
      cases h2
    · rintro ⟨hb, hcl⟩
      refine ⟨hb, ?_⟩
      cases hspb : samePath (absolutizeDir (goTrimSpace tl) gd)
        (absolutizeDir (goTrimSpace tl) gcd) with
      | false => rfl
      | true => exact absurd (hsp.mp hspb) hcl
  · rintro ⟨hb, hw⟩
    rw [hwt, hb] at hw
    simp at hw

/-- Witness for C6 at a concrete non-bare repository. -/
theorem worktree_classification_witness :
    buildRepository (str ("/work/repo")) wtQueries (str ("t0")) =
      Except.ok wtRepo ∧
    ((wtRepo.isWorktree = true ↔
      (wtRepo.isBare = false ∧
        goClean wtRepo.gitDir ≠
          goClean (absolutizeDir (goTrimSpace (str ("/work/repo
")))
            (str (".git
"))))) ∧
    ¬ (wtRepo.isBare = true ∧ wtRepo.isWorktree = true)) :=
  ⟨rfl, worktree_classification (str ("/work/repo")) (str ("/work/repo
"))
    (str (".git
")) (str (".git
")) (str ("false
")) (str (""))
    (str ("t0")) wtRepo rfl⟩

/-- C8 (amended): for every successfully resolved repository, the name
equals `filepath.Base` of the resolved top-level directory and is never
empty; since `Base` never returns an empty string, the generic
placeholder fallback in the source is unreachable, and a root top-level
(`/`) yields the root marker itself as the name. -/
theorem repo_name_is_base (path tl gd gcd bare sp now : GoStr)
    (repo : Repository)
    (hok : buildRepository path
      ⟨Except.ok tl, Except.ok gd, Except.ok gcd, Except.ok bare,
        Except.ok sp⟩ now = Except.ok repo) :
    repo.name = goBase (goTrimSpace tl) ∧ repo.name ≠ [] := by
  obtain ⟨_, _, hname, _⟩ :=
    buildRepository_ok_spec path tl gd gcd bare sp now repo hok
  have hb : goBase (goTrimSpace tl) ≠ [] := goBase_ne_nil _
  have hb' : (goBase (goTrimSpace tl)).isEmpty = false := by
    cases hbb : goBase (goTrimSpace tl) with
    | nil => exact absurd hbb hb
    | cons x t => rfl
  rw [hname, if_neg (by rw [hb']; exact Bool.false_ne_true)]
  exact ⟨rfl, hb⟩

/-- Witness for C8's amended statement at the concrete repository of the
C6 witness. -/
theorem repo_name_is_base_witness :
    wtRepo.name = goBase (goTrimSpace (str ("/work/repo
"))) ∧
    wtRepo.name ≠ [] :=
  repo_name_is_base (str ("/work/repo")) (str ("/work/repo
"))
    (str (".git
")) (str (".git
")) (str ("false
")) (str (""))
    (str ("t0")) wtRepo rfl

/-- Counterexample for C8 as stated: when the top-level resolves to the
root marker `/`, `filepath.Base` returns `/` itself, so the repository
name is the root marker, not the generic placeholder `repository` — the
fallback branch guards on an empty name, which `Base` never produces. -/
theorem repo_name_root_cex :
    (buildRepository (str ("/"))
      ⟨Except.ok (str ("/
")), Except.ok (str ("/.git
")),
        Except.ok (str ("/.git
")), Except.ok (str ("false
")),
        Except.ok (str (""))⟩ (str ("t0"))).map Repository.name =
      Except.ok (str ("/")) ∧
    str ("/") ≠ str ("repository") :=
  ⟨rfl, by decide⟩

/-- C9: the repository id is a deterministic function of the resolved
top-level path alone — two successful resolutions with equal trimmed
top-level outputs produce identical ids, independently of the candidate
path, the other query answers and the resolution timestamp; the id is
`ensureID` of the trimmed top-level. -/
theorem repo_id_deterministic
    (p₁ tl₁ gd₁ gcd₁ bare₁ sp₁ now₁ : GoStr) (r₁ : Repository)
    (p₂ tl₂ gd₂ gcd₂ bare₂ sp₂ now₂ : GoStr) (r₂ : Repository)
    (h₁ : buildRepository p₁
      ⟨Except.ok tl₁, Except.ok gd₁, Except.ok gcd₁, Except.ok bare₁,
        Except.ok sp₁⟩ now₁ = Except.ok r₁)
    (h₂ : buildRepository p₂
      ⟨Except.ok tl₂, Except.ok gd₂, Except.ok gcd₂, Except.ok bare₂,
        Except.ok sp₂⟩ now₂ = Except.ok r₂)
    (htl : goTrimSpace tl₁ = goTrimSpace tl₂) :
    r₁.id = r₂.id ∧ r₁.id = ensureID (goTrimSpace tl₁) := by
  obtain ⟨_, hid₁, _⟩ :=
    buildRepository_ok_spec p₁ tl₁ gd₁ gcd₁ bare₁ sp₁ now₁ r₁ h₁
  obtain ⟨_, hid₂, _⟩ :=
    buildRepository_ok_spec p₂ tl₂ gd₂ gcd₂ bare₂ sp₂ now₂ r₂ h₂
  constructor
  · rw [hid₁, hid₂, htl]
  · exact hid₁

/-- Witness for C9: two resolutions at different times with different
candidate paths but the same trimmed top-level yield the same id. -/
theorem repo_id_deterministic_witness :
    wtRepo.id = wtRepo₂.id ∧
    wtRepo.id = ensureID (goTrimSpace (str ("/work/repo
"))) :=
  repo_id_deterministic
    (str ("/work/repo")) (str ("/work/repo
")) (str (".git
"))
    (str (".git
")) (str ("false
")) (str ("")) (str ("t0")) wtRepo
    (str ("/work/repo/sub")) (str ("  /work/repo 
"))
    (str ("/work/repo/.git
")) (str ("/work/repo/.git
"))
    (str ("false
")) (str ("")) (str ("t1")) wtRepo₂
    rfl rfl (by decide)

end GitCfg
